import Mathlib

/-!
Verification of the prototype spawner (src/utils/spawner.py).

The development shallowly embeds the three functions of the module —
`_get_prototype`, `spawn` and `_batch_create_object` — over an explicit
model of Python values and dictionaries, and proves the specified
properties about them.

Modelling conventions:
* Python values are the inductive `Val` (None, int, str, list/tuple,
  dict, and zero-argument callables identified by a numeric id).
* Python dicts are insertion-ordered association lists with string keys
  (field names in this module are always strings); `setKey` mirrors
  `d[k] = v` (in-place overwrite, append when fresh), `popKey` mirrors
  `d.pop(k, None)`, `updateDict` mirrors `d.update(other)`.
* Exceptions are the `Except PyErr` monad; `PyErr.typeError` stands for
  Python's TypeError, `PyErr.valueError` for ValueError.
* Invoking a callable id `i` yields `cfg.callEnv i`; every invocation is
  recorded in an explicit trace, so "evaluated exactly once" is a
  statement about the trace.
* The external collaborators (object store, `handle_dbref`, `randint`,
  settings) are explicit parameters in `Config`; the per-object hooks and
  attachment handlers of `_batch_create_object` are modelled as an event
  trace (`Event`).
-/

namespace Spawner

/-- Model of a Python value as used by the spawner: literals, strings,
lists/tuples, string-keyed dicts, and zero-argument callables identified
by a numeric id. -/
inductive Val where
  | vnone : Val
  | vint : Int → Val
  | vstr : String → Val
  | vlist : List Val → Val
  | vdict : List (String × Val) → Val
  | vcallable : Nat → Val

/-- A Python dict with string keys: an insertion-ordered association list. -/
abbrev Dict := List (String × Val)

/-- Python exceptions raised by the spawner code paths we model. -/
inductive PyErr where
  | typeError : PyErr
  | valueError : PyErr
deriving Repr, DecidableEq

/-- Dictionary lookup (`d[k]` / `d.get(k)`): first entry with the key. -/
def lookupKey (k : String) : Dict → Option Val
  | [] => none
  | (k', v) :: rest => if k' = k then some v else lookupKey k rest

/-- Python `k in d`. -/
def hasKey (k : String) (d : Dict) : Bool := (lookupKey k d).isSome

/-- Python `d[k] = v`: overwrite in place if present, else append. -/
def setKey (k : String) (v : Val) : Dict → Dict
  | [] => [(k, v)]
  | (k', v') :: rest => if k' = k then (k, v) :: rest else (k', v') :: setKey k v rest

/-- Python `d.update(other)` for a dict argument. -/
def updateDict (d upd : Dict) : Dict := upd.foldl (fun acc kv => setKey kv.1 kv.2 acc) d

/-- Python `d.pop(k, None)` (dictionary side): remove the entry with key `k`. -/
def popKey (k : String) (d : Dict) : Dict := d.filter (fun kv => kv.1 != k)

/-- The keys of a dict, in order. -/
def keysOf (d : Dict) : List String := d.map (fun kv => kv.1)

/-- Whether the first char list starts the second one. -/
def charsLead : List Char → List Char → Bool
  | [], _ => true
  | _ :: _, [] => false
  | a :: as, b :: bs => a == b && charsLead as bs

/-- Whether the first char list occurs inside the second (Python `sub in s`). -/
def charsOccur (n : List Char) : List Char → Bool
  | [] => n.isEmpty
  | c :: rest => charsLead n (c :: rest) || charsOccur n rest

/-- Python substring test `n in h` for strings. -/
def strOccurs (n h : String) : Bool := charsOccur n.toList h.toList

/-- Python truthiness of a value (`if x:`). -/
def truthy : Val → Bool
  | .vnone => false
  | .vint n => n != 0
  | .vstr s => !s.isEmpty
  | .vlist l => !l.isEmpty
  | .vdict d => !d.isEmpty
  | .vcallable _ => true

theorem sizeOf_dict_pos (l : Dict) : 1 ≤ sizeOf l := by
  cases l with
  | nil => simp
  | cons a t => simp; omega

theorem lookupKey_sizeOf {k : String} {d : Dict} {v : Val}
    (h : lookupKey k d = some v) : sizeOf v + 3 ≤ sizeOf d := by
  induction d with
  | nil => simp [lookupKey] at h
  | cons kv rest ih =>
    obtain ⟨k', v'⟩ := kv
    simp only [lookupKey] at h
    by_cases hk : k' = k
    · rw [if_pos hk] at h
      obtain rfl : v' = v := by exact Option.some.inj h
      have h1 : 1 ≤ sizeOf rest := sizeOf_dict_pos rest
      simp
      omega
    · rw [if_neg hk] at h
      have := ih h
      simp
      omega

/-- Python `"prototype" in dic`, for the dynamic types a parent entry can have.
Membership on a non-iterable value (int, None, a function) raises TypeError. -/
def protoMember : Val → Except PyErr Bool
  | .vdict d => .ok (hasKey "prototype" d)
  | .vstr s => .ok (strOccurs "prototype" s)
  | .vlist xs => .ok (xs.any (fun x => match x with | .vstr s => s == "prototype" | _ => false))
  | _ => .error .typeError

/-- One element of a `dict.update(sequence)` argument: it must be a
two-element sequence giving a key/value pair (a two-element list/tuple, or a
two-character string).  Pairs whose key falls outside the string-keyed dict
model (this module only ever uses string field names) are mapped to
TypeError. -/
def pairEntry : Val → Except PyErr (String × Val)
  | .vlist [ .vstr k, v ] => .ok (k, v)
  | .vstr s =>
    match s.toList with
    | [a, b] => .ok (String.mk [a], .vstr (String.mk [b]))
    | _ => .error .valueError
  | .vlist l => if l.length = 2 then .error .typeError else .error .valueError
  | _ => .error .typeError

/-- Python `prot.update(xs)` when `xs` is a list/tuple: insert each element's
key/value pair in order. -/
def updatePairs (prot : Dict) : List Val → Except PyErr Dict
  | [] => .ok prot
  | x :: rest =>
    match pairEntry x with
    | .error e => .error e
    | .ok kv => updatePairs (setKey kv.1 kv.2 prot) rest

/-- Python `prot.update(dic)` for the dynamic types `dic` can have.  Updating
with a nonempty string raises ValueError (its elements are one-character
strings, which are not key/value pairs); the empty string updates nothing. -/
def updateWith (prot : Dict) : Val → Except PyErr Dict
  | .vdict d => .ok (updateDict prot d)
  | .vstr s => if s.isEmpty then .ok prot else .error .valueError
  | .vlist xs => updatePairs prot xs
  | _ => .error .typeError

/-- Body of `_get_prototype(dic, prot)` when `dic` is not a dict (it can be
handed any element of a `prototype` entry).  There is no recursion in this
case: `"prototype" in dic` either raises, or succeeds with `dic["prototype"]`
raising TypeError on a non-mapping, or the function falls through to
`prot.update(dic)` and the final `prot.pop("prototype", None)`. -/
def nonDictResolve (dic : Val) (prot : Dict) : Except PyErr Dict :=
  match protoMember dic with
  | .error e => .error e
  | .ok true => .error .typeError
  | .ok false =>
    match updateWith prot dic with
    | .error e => .error e
    | .ok prot1 => .ok (popKey "prototype" prot1)

mutual

/-- Embedding of `_get_prototype(dic, prot)` (spawner.py lines 86-99).
The Python code mutates `prot` in place and the loop line
`new_prot = _get_prototype(prototype, prot); prot.update(new_prot)` returns the
very same object, so the loop amounts to `prot = _get_prototype(prototype, prot)`
(see `resolveParents`).  A `prototype` entry that is a dict is wrapped into a
one-element tuple (`isinstance` check); a string iterates into its
one-character pieces, each of which fails `prot.update` with ValueError, so a
nonempty string raises and the empty string contributes no parents; a
non-iterable value raises TypeError at the `for` loop. -/
def getPrototype : Val → Dict → Except PyErr Dict
  | .vdict entries, prot =>
    match h : lookupKey "prototype" entries with
    | some (.vdict d) =>
      match resolveParents [Val.vdict d] prot with
      | .error e => .error e
      | .ok prot1 => .ok (popKey "prototype" (updateDict prot1 entries))
    | some (.vlist xs) =>
      match resolveParents xs prot with
      | .error e => .error e
      | .ok prot1 => .ok (popKey "prototype" (updateDict prot1 entries))
    | some (.vstr s) =>
      if s.isEmpty then .ok (popKey "prototype" (updateDict prot entries))
      else .error .valueError
    | some (.vint _) => .error .typeError
    | some .vnone => .error .typeError
    | some (.vcallable _) => .error .typeError
    | none => .ok (popKey "prototype" (updateDict prot entries))
  | dic, prot => nonDictResolve dic prot
termination_by v _ => sizeOf v
decreasing_by
  all_goals
    have := lookupKey_sizeOf h
    simp at this ⊢
    omega

/-- The loop `for prototype in prototypes: prot = _get_prototype(prototype, prot)`.
Only dict elements recurse into `_get_prototype`'s dict branch; every other
element takes the non-recursive path (`nonDictResolve`). -/
def resolveParents : List Val → Dict → Except PyErr Dict
  | [], prot => .ok prot
  | .vdict d :: ps, prot =>
    match getPrototype (.vdict d) prot with
    | .error e => .error e
    | .ok prot1 => resolveParents ps prot1
  | p :: ps, prot =>
    match nonDictResolve p prot with
    | .error e => .error e
    | .ok prot1 => resolveParents ps prot1
termination_by ps _ => sizeOf ps
decreasing_by
  all_goals simp
  all_goals omega

end

/-- Top-level resolution as `spawn` invokes it: `_get_prototype(prototype, {})`. -/
def resolve (spec : Val) : Except PyErr Dict := getPrototype spec []

/-- The external collaborators and ambient settings `spawn` reads:
`settings.DEFAULT_HOME`, `settings.BASE_OBJECT_TYPECLASS`, the `_handle_dbref`
lookup, the stream of `randint(1, 100000)` draws (indexed by the position of
the specification in the input), and the value a zero-argument callable with a
given id returns when invoked. -/
structure Config where
  DEFAULT_HOME : Val
  BASE_OBJECT_TYPECLASS : Val
  handle_dbref : Val → Val
  randint : Nat → Int
  callEnv : Nat → Val

/-- Python `prot.pop(k, default)`: the popped (or default) value together with
the remaining dict. -/
def popOr (k : String) (dflt : Val) (d : Dict) : Val × Dict :=
  match lookupKey k d with
  | some v => (v, popKey k d)
  | none => (dflt, d)

/-- Python `"%06i" % n` for the positive draws of `randint(1, 100000)`. -/
def format06 (n : Int) : String :=
  let s := toString n.natAbs
  String.mk (List.replicate (6 - s.length) '0') ++ s

/-- The characters of the transient prefix `"ndb_"`. -/
def ndbChars : List Char := ['n', 'd', 'b', '_']

/-- Python `key.startswith("ndb_")`. -/
def startsNdb (k : String) : Bool := charsLead ndbChars k.toList

/-- Python `key.split("_", 1)[1]` for a key that starts with `"ndb_"`: the key
with the prefix stripped (the first underscore is the one ending the prefix). -/
def stripNdb (k : String) : String := String.mk (k.toList.drop 4)

/-- The module constant `_CREATE_OBJECT_KWARGS = ("key", "location", "home", "destination")`. -/
def _CREATE_OBJECT_KWARGS : List String := ["key", "location", "home", "destination"]

/-- The five-part record `spawn` packs per specification for
`_batch_create_object`: `(create_kwargs, permission_string, lock_string,
alias_string, nattributes, attributes)`. -/
structure SpawnParams where
  create_kwargs : Dict
  permission_string : Val
  lock_string : Val
  alias_string : Val
  nattributes : Dict
  attributes : Dict

/-- The per-specification body of the `spawn` loop (spawner.py lines 166-190),
applied to the resolved dict `prot0`, with `rand` the `randint` draw used for
the default key.  Returns the packed record together with the trace of callable
invocations performed while building the `attributes` dict: one `(field, id)`
entry per invoked callable, in iteration order. -/
def buildParams (cfg : Config) (rand : Int) (prot0 : Dict) :
    SpawnParams × List (String × Nat) :=
  let p1 := popOr "key" (.vstr ("Spawned Object " ++ format06 rand)) prot0
  let p2 := popOr "location" .vnone p1.2
  let p3 := popOr "home" cfg.DEFAULT_HOME p2.2
  let p4 := popOr "destination" .vnone p3.2
  let p5 := popOr "typeclass" cfg.BASE_OBJECT_TYPECLASS p4.2
  let create_kwargs : Dict :=
    [("db_key", p1.1),
     ("db_location", cfg.handle_dbref p2.1),
     ("db_home", cfg.handle_dbref p3.1),
     ("db_destination", cfg.handle_dbref p4.1),
     ("db_typeclass_path", p5.1)]
  let p6 := popOr "permissions" (.vstr "") p5.2
  let p7 := popOr "locks" (.vstr "") p6.2
  let p8 := popOr "aliases" (.vstr "") p7.2
  let prot := p8.2
  let nattributes : Dict :=
    (prot.filter (fun kv => startsNdb kv.1)).map (fun kv => (stripNdb kv.1, kv.2))
  let attrPairs : Dict :=
    prot.filter (fun kv => !(_CREATE_OBJECT_KWARGS.contains kv.1 || hasKey kv.1 nattributes))
  let attributes : Dict :=
    attrPairs.map (fun kv => (kv.1, match kv.2 with | .vcallable i => cfg.callEnv i | v => v))
  let trace : List (String × Nat) :=
    attrPairs.filterMap (fun kv => match kv.2 with | .vcallable i => some (kv.1, i) | _ => none)
  (⟨create_kwargs, p6.1, p7.1, p8.1, nattributes, attributes⟩, trace)

/-- One call made on or for an object during `_batch_create_object`, tagged
with the object's position in the batch: construction (`ObjectDB(**kwargs)`),
the two initial hooks, the four attachment handlers, and the post-hook setup. -/
inductive Event where
  | construct : Nat → Event
  | basetypeSetup : Nat → Event
  | atObjectCreation : Nat → Event
  | addPermissions : Nat → Event
  | addLocks : Nat → Event
  | addAliases : Nat → Event
  | addNAttribute : Nat → String → Event
  | batchAddAttributes : Nat → Event
  | posthookSetup : Nat → Event
deriving Repr, DecidableEq

/-- The batch position an event belongs to. -/
def Event.idx : Event → Nat
  | construct i => i
  | basetypeSetup i => i
  | atObjectCreation i => i
  | addPermissions i => i
  | addLocks i => i
  | addAliases i => i
  | addNAttribute i _ => i
  | batchAddAttributes i => i
  | posthookSetup i => i

/-- The calls the loop body of `_batch_create_object` (lines 126-148) makes for
the object at batch position `i`: the two setup hooks, then each attachment
guarded by the truthiness of its argument, then the post-hook setup. -/
def entityEvents (i : Nat) (p : SpawnParams) : List Event :=
  [.basetypeSetup i, .atObjectCreation i]
  ++ (if truthy p.permission_string then [.addPermissions i] else [])
  ++ (if truthy p.lock_string then [.addLocks i] else [])
  ++ (if truthy p.alias_string then [.addAliases i] else [])
  ++ (if p.nattributes.isEmpty then []
      else p.nattributes.map (fun kv => .addNAttribute i kv.1))
  ++ (if p.attributes.isEmpty then [] else [.batchAddAttributes i])
  ++ [.posthookSetup i]

/-- The spawned object handle: its batch position and creation record. -/
structure Entity where
  idx : Nat
  params : SpawnParams

/-- The objects appended by the `for iobj, dbobj in enumerate(dbobjs)` loop,
starting at position `i`. -/
def objLoop (i : Nat) : List SpawnParams → List Entity
  | [] => []
  | p :: rest => ⟨i, p⟩ :: objLoop (i + 1) rest

/-- The call events of the per-object loop, starting at position `i`. -/
def entityLoop (i : Nat) : List SpawnParams → List Event
  | [] => []
  | p :: rest => entityEvents i p ++ entityLoop (i + 1) rest

/-- All calls `_batch_create_object` makes, in order: first every
`ObjectDB(**objparam[0])` construction (the bulk list comprehension at line
117), then the per-object hook/attachment sequences. -/
def batchTrace (params : List SpawnParams) : List Event :=
  ((List.range params.length).map Event.construct) ++ entityLoop 0 params

/-- Embedding of `_batch_create_object` in the absence of exceptions: the
returned objects and the trace of external calls. -/
def batchCreateObject (params : List SpawnParams) : List Entity × List Event :=
  (objLoop 0 params, batchTrace params)

/-- Executing a straight-line sequence of external calls of which some raise
(`failing e = true` means call `e` raises): the calls actually made, including
the raising one, and whether an exception was raised. -/
def runEvents (failing : Event → Bool) : List Event → List Event × Bool
  | [] => ([], false)
  | e :: rest =>
    if failing e then ([e], true)
    else
      let r := runEvents failing rest
      (e :: r.1, r.2)

/-- The per-object loop of `_batch_create_object` under exceptions: each
object's calls run in order; the first raising call propagates out of the
loop (there is no try/except), so nothing after it runs.  `objs.append(obj)`
is only reached if the object's whole sequence completed. -/
def runEntityLoop (failing : Event → Bool) (i : Nat) :
    List SpawnParams → List Entity → List Entity × List Event × Bool
  | [], objs => (objs, [], false)
  | p :: rest, objs =>
    let r := runEvents failing (entityEvents i p)
    if r.2 then (objs, r.1, true)
    else
      let rec' := runEntityLoop failing (i + 1) rest (objs ++ [⟨i, p⟩])
      (rec'.1, r.1 ++ rec'.2.1, rec'.2.2)

/-- Result of running `_batch_create_object` under exceptions. -/
structure RunResult where
  objs : List Entity
  events : List Event
  raised : Bool

/-- Embedding of `_batch_create_object` under exceptions: all constructions run
first; then the per-object loop runs until its first raising call, which
propagates (aborting the rest of that object's sequence and all later
objects). -/
def runBatchFail (failing : Event → Bool) (params : List SpawnParams) : RunResult :=
  let c := runEvents failing ((List.range params.length).map Event.construct)
  if c.2 then ⟨[], c.1, true⟩
  else
    let r := runEntityLoop failing 0 params []
    ⟨r.1, c.1 ++ r.2.1, r.2.2⟩

/-- The `for prototype in prototypes` loop of `spawn` (lines 160-190), with `i`
the input position (used to index the `randint` stream): resolves each
specification, skips it when the resolution is empty (`if not prot: continue`),
and otherwise packs its record, also collecting the callable-invocation
traces. -/
def spawnLoop (cfg : Config) (i : Nat) :
    List Val → Except PyErr (List SpawnParams × List (String × Nat))
  | [] => .ok ([], [])
  | proto :: rest =>
    match getPrototype proto [] with
    | .error e => .error e
    | .ok prot =>
      if prot.isEmpty then spawnLoop cfg (i + 1) rest
      else
        let pt := buildParams cfg (cfg.randint i) prot
        match spawnLoop cfg (i + 1) rest with
        | .error e => .error e
        | .ok rest' => .ok (pt.1 :: rest'.1, pt.2 ++ rest'.2)

/-- Embedding of `spawn(*prototypes)` (lines 153-192): resolve and pack every
specification, then run `_batch_create_object` on the packed records.  Returns
the created objects, the trace of external calls, and the trace of callable
invocations made while packing. -/
def spawn (cfg : Config) (prototypes : List Val) :
    Except PyErr (List Entity × List Event × List (String × Nat)) :=
  match spawnLoop cfg 0 prototypes with
  | .error e => .error e
  | .ok r => .ok ((batchCreateObject r.1).1, (batchCreateObject r.1).2, r.2)

/-- The tail of `_get_prototype`'s dict branch applied to the outcome of the
parent loop: on success, `prot.update(dic)` followed by
`prot.pop("prototype", None)`; an error propagates. -/
def popUpdateResult (entries : Dict) : Except PyErr Dict → Except PyErr Dict
  | .error e => .error e
  | .ok m => .ok (popKey "prototype" (updateDict m entries))

/-- `b` is `a` overlaid on `prot`: looking a key up in `b` gives `a`'s value
when `a` defines it and otherwise `prot`'s value; and `b` has duplicate-free
keys whenever `prot` does. -/
def Overlay (a b prot : Dict) : Prop :=
  (∀ k, lookupKey k b = if hasKey k a then lookupKey k a else lookupKey k prot)
  ∧ ((keysOf prot).Nodup → (keysOf b).Nodup)

/-- Relation between a resolver run from the empty accumulator (`r0`) and the
same run from accumulator `prot` (`r`): they raise the same error, or both
succeed with the second result being the first overlaid on `prot` and free of
the `prototype` key. -/
def Rel (prot : Dict) (r0 r : Except PyErr Dict) : Prop :=
  match r0, r with
  | .error e0, .error e => e0 = e
  | .ok m0, .ok m => Overlay m0 m prot ∧ hasKey "prototype" m = false
  | _, _ => False

/-- The parents a specification's `prototype` entry denotes, in merge order
(empty when the entry is absent; error cases also map to the empty list, they
never produce a successful resolution anyway). -/
def parentsOf (entries : Dict) : List Val :=
  match lookupKey "prototype" entries with
  | some (.vdict d) => [Val.vdict d]
  | some (.vlist xs) => xs
  | _ => []

mutual

/-- Specifications in the format the module documents: a dict whose
`prototype` entry, if present, is a dict or a list/tuple of dicts of the same
format, recursively. -/
def wfSpec : Val → Bool
  | .vdict entries =>
    match h : lookupKey "prototype" entries with
    | some (.vdict d) => wfSpec (.vdict d)
    | some (.vlist xs) => wfParents xs
    | some _ => false
    | none => true
  | _ => false
termination_by v => sizeOf v
decreasing_by
  all_goals
    have := lookupKey_sizeOf h
    simp at this ⊢
    omega

/-- Every member of a parent list is a well-formed dict specification. -/
def wfParents : List Val → Bool
  | [] => true
  | .vdict d :: ps => wfSpec (.vdict d) && wfParents ps
  | _ :: _ => false
termination_by ps => sizeOf ps
decreasing_by
  all_goals simp
  all_goals omega

end

/-- Specification-side description of one `spawn` loop step, following the
spec's words: the packed record for the specification at input position `i`,
or `none` when its resolution is empty (such entries are skipped). -/
def specResolvedParams (cfg : Config) (i : Nat) (s : Val) : Option SpawnParams :=
  match getPrototype s [] with
  | .ok m => if m.isEmpty then none else some (buildParams cfg (cfg.randint i) m).1
  | .error _ => none

/-- Specification-side description of the batch packing, following the spec's
words: the packed records in input order, skipping specifications whose
resolution is empty. -/
def specsFilter (cfg : Config) : Nat → List Val → List SpawnParams
  | _, [] => []
  | i, s :: rest =>
    match specResolvedParams cfg i s with
    | none => specsFilter cfg (i + 1) rest
    | some p => p :: specsFilter cfg (i + 1) rest

/-- A concrete configuration for exercising the definitions on closed inputs:
identity reference resolution, constant `randint` draw 7, and every callable
returning the integer 99. -/
def cfgW : Config := ⟨.vnone, .vstr "base.Object", fun v => v, fun _ => 7, fun _ => .vint 99⟩

/-- A concrete raising behavior: the permissions handler of the first batch
entry raises, every other call succeeds. -/
def failPerm0 : Event → Bool := fun e => e == Event.addPermissions 0

/-- Two concrete packed records for exercising `_batch_create_object`. -/
def paramsW : List SpawnParams :=
  [⟨[("db_key", .vstr "a")], .vstr "perm", .vstr "lock", .vstr "", [("g", .vint 1)], [("h", .vint 2)]⟩,
   ⟨[("db_key", .vstr "b")], .vstr "", .vstr "", .vstr "", [], [("x", .vint 3)]⟩]

/-- Three concrete specifications, the middle one resolving to the empty
mapping. -/
def specsW : List Val :=
  [.vdict [("key", .vstr "a")], .vdict [], .vdict [("key", .vstr "b"), ("extra", .vint 5)]]

/-- A concrete resolved mapping whose identity and access-control fields all
hold callables. -/
def protC10 : Dict :=
  [("key", .vcallable 0), ("typeclass", .vcallable 1), ("permissions", .vcallable 2),
   ("locks", .vcallable 3), ("aliases", .vcallable 4), ("hp", .vcallable 5)]

/-- Concrete parents for the inheritance witnesses. -/
def parentA : Val := .vdict [("f", .vint 1), ("g", .vint 2)]

/-- Second concrete parent, redefining `f`. -/
def parentB : Val := .vdict [("f", .vint 3)]

/-- A concrete child naming two parents and a field of its own. -/
def childW : Val := .vdict [("key", .vstr "c"), ("g", .vint 9), ("prototype", .vlist [parentA, parentB])]

theorem lookupKey_append (k : String) (a b : Dict) :
    lookupKey k (a ++ b) =
      match lookupKey k a with
      | some v => some v
      | none => lookupKey k b := by
  induction a with
  | nil => simp [lookupKey]
  | cons kv rest ih =>
    obtain ⟨k', v'⟩ := kv
    by_cases h : k' = k
    · simp [lookupKey, h]
    · simp [lookupKey, h, ih]

theorem lookupKey_setKey (k q : String) (v : Val) (d : Dict) :
    lookupKey q (setKey k v d) = if k = q then some v else lookupKey q d := by
  induction d with
  | nil => simp [setKey, lookupKey]
  | cons kv rest ih =>
    obtain ⟨a, b⟩ := kv
    by_cases hak : a = k
    · subst hak
      by_cases haq : a = q
      · simp [setKey, lookupKey, haq]
      · simp [setKey, lookupKey, haq]
    · by_cases haq : a = q
      · subst haq
        have : ¬ k = a := fun hh => hak hh.symm
        simp [setKey, lookupKey, hak, this]
      · simp [setKey, lookupKey, hak, haq, ih]

theorem lookupKey_popKey (k q : String) (d : Dict) :
    lookupKey q (popKey k d) = if k = q then none else lookupKey q d := by
  induction d with
  | nil => simp [popKey, lookupKey]
  | cons kv rest ih =>
    obtain ⟨a, b⟩ := kv
    simp only [popKey] at ih ⊢
    rw [List.filter_cons]
    by_cases hak : a = k
    · have hb : ((a, b).1 != k) = false := by simp [hak]
      rw [hb]
      simp only [Bool.false_eq_true, if_false]
      rw [ih]
      by_cases hkq : k = q
      · simp [hkq]
      · have haq : ¬ a = q := fun hh => hkq (hak ▸ hh)
        simp [lookupKey, hkq, haq]
    · have hb : ((a, b).1 != k) = true := by simp [hak]
      rw [hb]
      simp only [if_true]
      by_cases haq : a = q
      · subst haq
        have hkq : ¬ k = a := fun hh => hak hh.symm
        simp [lookupKey, hkq]
      · simp [lookupKey, haq, ih]

theorem updateDict_nil (d : Dict) : updateDict d [] = d := rfl

theorem updateDict_cons (d : Dict) (kv : String × Val) (u : Dict) :
    updateDict d (kv :: u) = updateDict (setKey kv.1 kv.2 d) u := rfl

theorem lookupKey_updateDict (k : String) (d u : Dict) :
    lookupKey k (updateDict d u) =
      match lookupKey k u.reverse with
      | some v => some v
      | none => lookupKey k d := by
  induction u generalizing d with
  | nil =>
    rw [updateDict_nil]
    simp [lookupKey]
  | cons kv rest ih =>
    obtain ⟨a, b⟩ := kv
    rw [updateDict_cons, ih, List.reverse_cons, lookupKey_append]
    by_cases hk : a = k
    · subst hk
      cases hr : lookupKey a rest.reverse <;>
        simp [lookupKey, lookupKey_setKey]
    · cases hr : lookupKey k rest.reverse <;>
        simp [lookupKey, hk, lookupKey_setKey]

theorem lookupKey_isSome_iff (k : String) (d : Dict) :
    (lookupKey k d).isSome = true ↔ k ∈ keysOf d := by
  induction d with
  | nil => simp [lookupKey, keysOf]
  | cons kv rest ih =>
    obtain ⟨a, b⟩ := kv
    by_cases hak : a = k
    · simp [lookupKey, keysOf, hak]
    · simp [lookupKey, keysOf, hak, ih]
      intro hh
      exact absurd hh.symm hak

theorem hasKey_iff_mem (k : String) (d : Dict) : hasKey k d = true ↔ k ∈ keysOf d :=
  lookupKey_isSome_iff k d

theorem keysOf_reverse (d : Dict) : keysOf d.reverse = (keysOf d).reverse := by
  simp [keysOf]

theorem hasKey_reverse (k : String) (d : Dict) : hasKey k d.reverse = hasKey k d := by
  rw [Bool.eq_iff_iff, hasKey_iff_mem, hasKey_iff_mem, keysOf_reverse, List.mem_reverse]

theorem hasKey_updateDict (k : String) (d u : Dict) :
    hasKey k (updateDict d u) = (hasKey k u || hasKey k d) := by
  have hrev : hasKey k u.reverse = hasKey k u := hasKey_reverse k u
  simp only [hasKey] at hrev ⊢
  rw [lookupKey_updateDict]
  rcases h : lookupKey k u.reverse with _ | v
  · rw [h] at hrev
    simp only [Option.isSome_none] at hrev
    rw [← hrev]
    simp
  · rw [h] at hrev
    simp only [Option.isSome_some] at hrev
    rw [← hrev]
    simp

theorem hasKey_popKey (k q : String) (d : Dict) :
    hasKey q (popKey k d) = if k = q then false else hasKey q d := by
  by_cases h : k = q <;> simp [hasKey, lookupKey_popKey, h]

theorem lookupKey_reverse_of_nodup (k : String) (d : Dict) (h : (keysOf d).Nodup) :
    lookupKey k d.reverse = lookupKey k d := by
  induction d with
  | nil => simp
  | cons kv rest ih =>
    obtain ⟨a, b⟩ := kv
    simp only [keysOf, List.map_cons, List.nodup_cons] at h
    rw [List.reverse_cons, lookupKey_append]
    by_cases hak : a = k
    · subst hak
      have : lookupKey a rest = none := by
        rcases hr : lookupKey a rest with _ | v
        · rfl
        · have : a ∈ keysOf rest := by
            rw [← lookupKey_isSome_iff, hr]
            rfl
          exact absurd this h.1
      have hrev : lookupKey a rest.reverse = none := by
        rcases hr : lookupKey a rest.reverse with _ | v
        · rfl
        · have hmem : a ∈ keysOf rest.reverse := by
            rw [← lookupKey_isSome_iff, hr]
            rfl
          rw [keysOf_reverse] at hmem
          simp at hmem
          exact absurd hmem h.1
      simp [hrev, lookupKey, this]
    · have := ih h.2
      rw [this]
      rcases hr : lookupKey k rest with _ | v <;> simp [lookupKey, hak, hr]

theorem keysOf_setKey (k : String) (v : Val) (d : Dict) :
    keysOf (setKey k v d) = if hasKey k d then keysOf d else keysOf d ++ [k] := by
  induction d with
  | nil => simp [setKey, keysOf, hasKey, lookupKey]
  | cons kv rest ih =>
    obtain ⟨a, b⟩ := kv
    by_cases hak : a = k
    · subst hak
      simp [setKey, keysOf, hasKey, lookupKey]
    · have h1 : setKey k v ((a, b) :: rest) = (a, b) :: setKey k v rest := by
        simp [setKey, hak]
      have h2 : hasKey k ((a, b) :: rest) = hasKey k rest := by
        simp [hasKey, lookupKey, hak]
      have h3 : keysOf ((a, b) :: setKey k v rest) = a :: keysOf (setKey k v rest) := rfl
      have h4 : keysOf ((a, b) :: rest) = a :: keysOf rest := rfl
      rw [h1, h2, h3, h4, ih]
      by_cases hr : hasKey k rest <;> simp [hr]

theorem nodup_setKey (k : String) (v : Val) (d : Dict) (h : (keysOf d).Nodup) :
    (keysOf (setKey k v d)).Nodup := by
  rw [keysOf_setKey]
  by_cases hk : hasKey k d
  · simp [hk, h]
  · rw [if_neg hk]
    rw [List.nodup_append]
    refine ⟨h, List.nodup_singleton k, ?_⟩
    intro a ha hb
    simp at hb
    subst hb
    rw [← hasKey_iff_mem] at ha
    exact absurd ha (by simp [hk])

theorem nodup_updateDict (d u : Dict) (h : (keysOf d).Nodup) :
    (keysOf (updateDict d u)).Nodup := by
  induction u generalizing d with
  | nil => exact h
  | cons kv rest ih =>
    rw [updateDict_cons]
    exact ih _ (nodup_setKey _ _ _ h)

theorem nodup_popKey (k : String) (d : Dict) (h : (keysOf d).Nodup) :
    (keysOf (popKey k d)).Nodup := by
  have hsub : List.Sublist (keysOf (popKey k d)) (keysOf d) := by
    show List.Sublist (List.map (fun kv => kv.1) (List.filter (fun kv => kv.1 != k) d))
      (List.map (fun kv => kv.1) d)
    exact (List.filter_sublist d).map (fun kv => kv.1)
  exact h.sublist hsub

theorem lookupKey_eq_none_of_hasKey_false {k : String} {d : Dict}
    (h : hasKey k d = false) : lookupKey k d = none := by
  rcases hl : lookupKey k d with _ | v
  · rfl
  · exfalso
    rw [hasKey, hl] at h
    simp at h

theorem resolveParents_nil (prot : Dict) : resolveParents [] prot = .ok prot := by
  simp [resolveParents]

theorem resolveParents_cons (p : Val) (ps : List Val) (prot : Dict) :
    resolveParents (p :: ps) prot =
      match getPrototype p prot with
      | .error e => .error e
      | .ok prot1 => resolveParents ps prot1 := by
  cases p with
  | vdict d => simp [resolveParents]
  | vnone => simp [resolveParents, getPrototype]
  | vint n => simp [resolveParents, getPrototype]
  | vstr s => simp [resolveParents, getPrototype]
  | vlist l => simp [resolveParents, getPrototype]
  | vcallable i => simp [resolveParents, getPrototype]

theorem getPrototype_dict (entries prot : Dict) :
    getPrototype (.vdict entries) prot =
      match lookupKey "prototype" entries with
      | some (.vdict d) =>
        (match resolveParents [Val.vdict d] prot with
         | .error e => .error e
         | .ok prot1 => .ok (popKey "prototype" (updateDict prot1 entries)))
      | some (.vlist xs) =>
        (match resolveParents xs prot with
         | .error e => .error e
         | .ok prot1 => .ok (popKey "prototype" (updateDict prot1 entries)))
      | some (.vstr s) =>
        if s.isEmpty then .ok (popKey "prototype" (updateDict prot entries))
        else .error .valueError
      | some (.vint _) => .error .typeError
      | some .vnone => .error .typeError
      | some (.vcallable _) => .error .typeError
      | none => .ok (popKey "prototype" (updateDict prot entries)) := by
  simp only [getPrototype]
  split <;> rename_i heq <;> simp [heq]

theorem overlay_nil (prot : Dict) : Overlay [] prot prot := by
  constructor
  · intro k
    simp [hasKey, lookupKey]
  · exact fun h => h

theorem overlay_setKey (k : String) (v : Val) {a b prot : Dict} (h : Overlay a b prot) :
    Overlay (setKey k v a) (setKey k v b) prot := by
  obtain ⟨hl, hn⟩ := h
  constructor
  · intro q
    by_cases hkq : k = q
    · subst hkq
      simp [lookupKey_setKey, hasKey]
    · rw [lookupKey_setKey, if_neg hkq, hl q]
      have h1 : hasKey q (setKey k v a) = hasKey q a := by
        simp [hasKey, lookupKey_setKey, hkq]
      rw [h1, lookupKey_setKey, if_neg hkq]
  · exact fun hp => nodup_setKey _ _ _ (hn hp)

theorem overlay_updateDict (entries : Dict) {a b prot : Dict} (h : Overlay a b prot) :
    Overlay (updateDict a entries) (updateDict b entries) prot := by
  induction entries generalizing a b with
  | nil =>
    rw [updateDict_nil, updateDict_nil]
    exact h
  | cons kv rest ih =>
    rw [updateDict_cons, updateDict_cons]
    exact ih (overlay_setKey _ _ h)

theorem relok_of_overlay_pop {a b prot : Dict} (h : Overlay a b prot)
    (hnp : hasKey "prototype" prot = false) :
    Overlay (popKey "prototype" a) (popKey "prototype" b) prot
    ∧ hasKey "prototype" (popKey "prototype" b) = false := by
  obtain ⟨hl, hn⟩ := h
  refine ⟨⟨?_, ?_⟩, ?_⟩
  · intro q
    rw [lookupKey_popKey]
    by_cases hq : "prototype" = q
    · subst hq
      have h1 : hasKey "prototype" (popKey "prototype" a) = false := by
        simp [hasKey_popKey]
      rw [if_pos rfl, h1]
      simp only [Bool.false_eq_true, if_false]
      rw [lookupKey_eq_none_of_hasKey_false hnp]
    · rw [if_neg hq, hl q]
      have h2 : hasKey q (popKey "prototype" a) = hasKey q a := by
        rw [hasKey_popKey, if_neg hq]
      rw [h2, lookupKey_popKey, if_neg hq]
  · exact fun hp => nodup_popKey _ _ (hn hp)
  · simp [hasKey_popKey]

theorem rel_updatePairs (xs : List Val) {a b prot : Dict} (h : Overlay a b prot) :
    (∃ e, updatePairs a xs = .error e ∧ updatePairs b xs = .error e)
    ∨ (∃ m0 m, updatePairs a xs = .ok m0 ∧ updatePairs b xs = .ok m ∧ Overlay m0 m prot) := by
  induction xs generalizing a b with
  | nil =>
    right
    exact ⟨a, b, rfl, rfl, h⟩
  | cons x rest ih =>
    rcases hp : pairEntry x with e | kv
    · left
      exact ⟨e, by simp [updatePairs, hp], by simp [updatePairs, hp]⟩
    · have := ih (overlay_setKey kv.1 kv.2 h)
      simpa [updatePairs, hp] using this

theorem rel_nonDict (dic : Val) (prot : Dict) (hnp : hasKey "prototype" prot = false) :
    Rel prot (nonDictResolve dic []) (nonDictResolve dic prot) := by
  cases dic with
  | vnone => simp [nonDictResolve, protoMember, Rel]
  | vint n => simp [nonDictResolve, protoMember, Rel]
  | vcallable i => simp [nonDictResolve, protoMember, Rel]
  | vstr s =>
    rcases hm : strOccurs "prototype" s with _ | _
    · by_cases hs : s.isEmpty
      · simp only [nonDictResolve, protoMember, hm, updateWith, hs, if_true]
        have := relok_of_overlay_pop (overlay_nil prot) hnp
        simpa [Rel] using this
      · simp [nonDictResolve, protoMember, hm, updateWith, hs, Rel]
    · simp [nonDictResolve, protoMember, hm, Rel]
  | vlist xs =>
    rcases hm : xs.any (fun x => match x with | .vstr s => s == "prototype" | _ => false) with _ | _
    · rcases rel_updatePairs xs (overlay_nil prot) with ⟨e, h0, h1⟩ | ⟨m0, m, h0, h1, hov⟩
      · simp [nonDictResolve, protoMember, hm, updateWith, h0, h1, Rel]
      · simp only [nonDictResolve, protoMember, hm, updateWith, h0, h1]
        have := relok_of_overlay_pop hov hnp
        simpa [Rel] using this
    · simp [nonDictResolve, protoMember, hm, Rel]
  | vdict d =>
    rcases hm : hasKey "prototype" d with _ | _
    · simp only [nonDictResolve, protoMember, hm, updateWith]
      have := relok_of_overlay_pop (overlay_updateDict d (overlay_nil prot)) hnp
      simpa [Rel] using this
    · simp [nonDictResolve, protoMember, hm, Rel]

theorem sizeOf_val_pos (v : Val) : 1 ≤ sizeOf v := by
  cases v <;> simp

theorem sizeOf_vallist_pos (l : List Val) : 1 ≤ sizeOf l := by
  cases l with
  | nil => simp
  | cons a t => simp; omega

theorem overlay_comp {a b prot R M0 M : Dict}
    (hab : Overlay a b prot) (h0 : Overlay R M0 a) (h1 : Overlay R M b) :
    Overlay M0 M prot := by
  obtain ⟨hab1, hab2⟩ := hab
  obtain ⟨h01, h02⟩ := h0
  obtain ⟨h11, h12⟩ := h1
  constructor
  · intro k
    rw [h11 k]
    by_cases hR : hasKey k R = true
    · have hM0eq : lookupKey k M0 = lookupKey k R := by rw [h01 k, if_pos hR]
      have hM0 : hasKey k M0 = true := by
        rw [hasKey, hM0eq, ← hasKey]
        exact hR
      rw [if_pos hR, if_pos hM0, hM0eq]
    · have hM0eq : lookupKey k M0 = lookupKey k a := by rw [h01 k, if_neg hR]
      have hM0 : hasKey k M0 = hasKey k a := by
        rw [hasKey, hM0eq, ← hasKey]
      rw [if_neg hR, hab1 k]
      by_cases ha : hasKey k a = true
      · rw [if_pos ha, if_pos (by rw [hM0]; exact ha), hM0eq]
      · rw [if_neg ha, if_neg (by rw [hM0]; exact ha)]
  · exact fun hp => h12 (hab2 hp)

theorem rel_comp {prot m0' m' : Dict} {rPiv r0 r : Except PyErr Dict}
    (hhead : Overlay m0' m' prot)
    (hpiv0 : Rel m0' rPiv r0) (hpiv1 : Rel m' rPiv r) :
    Rel prot r0 r := by
  rcases rPiv with e | R
  · rcases r0 with e0 | M0
    · rcases r with e1 | M1
      · simp only [Rel] at hpiv0 hpiv1 ⊢
        rw [← hpiv0, ← hpiv1]
      · simp [Rel] at hpiv1
    · simp [Rel] at hpiv0
  · rcases r0 with e0 | M0
    · simp [Rel] at hpiv0
    · rcases r with e1 | M1
      · simp [Rel] at hpiv1
      · simp only [Rel] at hpiv0 hpiv1 ⊢
        exact ⟨overlay_comp hhead hpiv0.1 hpiv1.1, hpiv1.2⟩

theorem rel_popUpdate (entries : Dict) {prot : Dict} {r0 r : Except PyErr Dict}
    (h : Rel prot r0 r) (hnp : hasKey "prototype" prot = false) :
    Rel prot (popUpdateResult entries r0) (popUpdateResult entries r) := by
  rcases r0 with e0 | m0
  · rcases r with e1 | m1
    · simpa [Rel, popUpdateResult] using h
    · simp [Rel] at h
  · rcases r with e1 | m1
    · simp [Rel] at h
    · simp only [Rel, popUpdateResult] at h ⊢
      exact relok_of_overlay_pop (overlay_updateDict entries h.1) hnp

theorem accum_main (n : Nat) :
    (∀ p : Val, sizeOf p ≤ n → ∀ prot, hasKey "prototype" prot = false →
      Rel prot (getPrototype p []) (getPrototype p prot))
    ∧ (∀ ps : List Val, sizeOf ps ≤ n → ∀ prot, hasKey "prototype" prot = false →
      Rel prot (resolveParents ps []) (resolveParents ps prot)) := by
  induction n using Nat.strong_induction_on with
  | _ n ih =>
    constructor
    · intro p hp prot hnp
      cases p with
      | vdict entries =>
        rw [getPrototype_dict entries [], getPrototype_dict entries prot]
        rcases hlk : lookupKey "prototype" entries with _ | pv
        · simp only [hlk]
          simp only [Rel]
          exact relok_of_overlay_pop (overlay_updateDict entries (overlay_nil prot)) hnp
        · cases pv with
          | vdict d =>
            simp only [hlk]
            have hsz : sizeOf ([Val.vdict d] : List Val) < n := by
              have h1 := lookupKey_sizeOf hlk
              simp at h1 hp ⊢
              omega
            have hrel := (ih _ hsz).2 [Val.vdict d] le_rfl prot hnp
            exact rel_popUpdate entries hrel hnp
          | vlist xs =>
            simp only [hlk]
            have hsz : sizeOf xs < n := by
              have h1 := lookupKey_sizeOf hlk
              simp at h1 hp ⊢
              omega
            have hrel := (ih _ hsz).2 xs le_rfl prot hnp
            exact rel_popUpdate entries hrel hnp
          | vstr s =>
            simp only [hlk]
            by_cases hs : s.isEmpty = true
            · rw [if_pos hs, if_pos hs]
              simp only [Rel]
              exact relok_of_overlay_pop (overlay_updateDict entries (overlay_nil prot)) hnp
            · rw [if_neg hs, if_neg hs]
              simp [Rel]
          | vint n0 =>
            simp only [hlk]
            simp [Rel]
          | vnone =>
            simp only [hlk]
            simp [Rel]
          | vcallable i =>
            simp only [hlk]
            simp [Rel]
      | vnone =>
        simp only [getPrototype]
        exact rel_nonDict _ _ hnp
      | vint n0 =>
        simp only [getPrototype]
        exact rel_nonDict _ _ hnp
      | vstr s =>
        simp only [getPrototype]
        exact rel_nonDict _ _ hnp
      | vlist l =>
        simp only [getPrototype]
        exact rel_nonDict _ _ hnp
      | vcallable i =>
        simp only [getPrototype]
        exact rel_nonDict _ _ hnp
    · intro ps hps prot hnp
      cases ps with
      | nil =>
        rw [resolveParents_nil, resolveParents_nil]
        simp only [Rel]
        exact ⟨overlay_nil prot, hnp⟩
      | cons p ps' =>
        rw [resolveParents_cons, resolveParents_cons]
        have hp1 : 1 ≤ sizeOf p := sizeOf_val_pos p
        have hps1 : 1 ≤ sizeOf ps' := sizeOf_vallist_pos ps'
        have hszp : sizeOf p < n := by
          simp at hps
          omega
        have hszps : sizeOf ps' < n := by
          simp at hps
          omega
        have hhead := (ih _ hszp).1 p le_rfl prot hnp
        have hheadSelf := (ih _ hszp).1 p le_rfl [] rfl
        rcases h0 : getPrototype p [] with e | m0'
        · rcases h1 : getPrototype p prot with e1 | m'
          · rw [h0, h1] at hhead
            simp only [Rel] at hhead
            simp only [h0, h1]
            subst hhead
            simp [Rel]
          · rw [h0, h1] at hhead
            simp [Rel] at hhead
        · rcases h1 : getPrototype p prot with e1 | m'
          · rw [h0, h1] at hhead
            simp [Rel] at hhead
          · rw [h0] at hheadSelf
            rw [h0, h1] at hhead
            simp only [Rel] at hhead hheadSelf
            obtain ⟨hov, hnpm'⟩ := hhead
            have hnpm0' : hasKey "prototype" m0' = false := hheadSelf.2
            simp only [h0, h1]
            have hpiv0 := (ih _ hszps).2 ps' le_rfl m0' hnpm0'
            have hpiv1 := (ih _ hszps).2 ps' le_rfl m' hnpm'
            exact rel_comp hov hpiv0 hpiv1

theorem gp_accum (p : Val) {prot : Dict} (hnp : hasKey "prototype" prot = false) :
    Rel prot (getPrototype p []) (getPrototype p prot) :=
  (accum_main (sizeOf p)).1 p le_rfl prot hnp

theorem rp_accum (ps : List Val) {prot : Dict} (hnp : hasKey "prototype" prot = false) :
    Rel prot (resolveParents ps []) (resolveParents ps prot) :=
  (accum_main (sizeOf ps)).2 ps le_rfl prot hnp

theorem resolve_self_rel (p : Val) : Rel [] (getPrototype p []) (getPrototype p []) :=
  gp_accum p rfl

theorem resolve_noproto {p : Val} {m : Dict} (h : getPrototype p [] = .ok m) :
    hasKey "prototype" m = false := by
  have hr := resolve_self_rel p
  rw [h] at hr
  simp only [Rel] at hr
  exact hr.2

theorem resolve_nodup {p : Val} {m : Dict} (h : getPrototype p [] = .ok m) :
    (keysOf m).Nodup := by
  have hr := resolve_self_rel p
  rw [h] at hr
  simp only [Rel] at hr
  exact hr.1.2 (by simp [keysOf])

theorem rp_hasKey_union (ps : List Val) {M : Dict}
    (h : resolveParents ps [] = .ok M) (k : String) :
    hasKey k M = true ↔
      ∃ p ∈ ps, ∃ mp, getPrototype p [] = .ok mp ∧ hasKey k mp = true := by
  induction ps generalizing M with
  | nil =>
    rw [resolveParents_nil] at h
    obtain rfl : ([] : Dict) = M := Except.ok.inj h
    simp [hasKey, lookupKey]
  | cons p ps' ih =>
    rw [resolveParents_cons] at h
    rcases h0 : getPrototype p [] with e | m0
    · rw [h0] at h
      simp at h
    · rw [h0] at h
      change resolveParents ps' m0 = .ok M at h
      have hnp0 : hasKey "prototype" m0 = false := resolve_noproto h0
      have hrel := rp_accum ps' hnp0
      rcases hq : resolveParents ps' [] with e | R
      · rw [hq, h] at hrel
        simp [Rel] at hrel
      · rw [hq, h] at hrel
        simp only [Rel] at hrel
        obtain ⟨⟨hl, _⟩, _⟩ := hrel
        constructor
        · intro hM
          rw [hasKey, hl k] at hM
          by_cases hR : hasKey k R = true
          · obtain ⟨p', hp', rest⟩ := (ih hq).mp hR
            exact ⟨p', List.mem_cons_of_mem _ hp', rest⟩
          · rw [if_neg hR] at hM
            exact ⟨p, List.mem_cons_self p ps', m0, h0, hM⟩
        · rintro ⟨p', hp', mp, hmp, hk⟩
          rcases List.mem_cons.mp hp' with rfl | hmem
          · rw [h0] at hmp
            obtain rfl : m0 = mp := Except.ok.inj hmp
            rw [hasKey, hl k]
            by_cases hR : hasKey k R = true
            · rw [if_pos hR]
              exact hR
            · rw [if_neg hR]
              exact hk
          · have hR : hasKey k R = true := (ih hq).mpr ⟨p', hmem, mp, hmp, hk⟩
            rw [hasKey, hl k, if_pos hR]
            exact hR

theorem hasKey_popUpdate (entries R : Dict) (k : String) :
    hasKey k (popKey "prototype" (updateDict R entries))
      = if "prototype" = k then false else (hasKey k entries || hasKey k R) := by
  rw [hasKey_popKey, hasKey_updateDict]

theorem rp_preserves (ps : List Val) {X M : Dict} (hnp : hasKey "prototype" X = false)
    (h : resolveParents ps X = .ok M) (k : String)
    (hnone : ∀ p ∈ ps, ∀ mp, getPrototype p [] = .ok mp → hasKey k mp = false) :
    lookupKey k M = lookupKey k X := by
  have hrel := rp_accum ps hnp
  rcases hq : resolveParents ps [] with e | R
  · rw [hq, h] at hrel
    simp [Rel] at hrel
  · rw [hq, h] at hrel
    simp only [Rel] at hrel
    obtain ⟨⟨hl, _⟩, _⟩ := hrel
    have hR : hasKey k R = false := by
      rcases hb : hasKey k R with _ | _
      · rfl
      · obtain ⟨p, hp, mp, hmp, hk⟩ := (rp_hasKey_union ps hq k).mp hb
        rw [hnone p hp mp hmp] at hk
        cases hk
    rw [hl k, if_neg (by simp [hR])]

theorem rp_last_lookup (ps : List Val) :
    ∀ (prot M : Dict), hasKey "prototype" prot = false →
    resolveParents ps prot = .ok M →
    ∀ (k : String) (j : Nat) (hj : j < ps.length) (mj : Dict),
      getPrototype (ps.get ⟨j, hj⟩) [] = .ok mj →
      hasKey k mj = true →
      (∀ (l : Nat) (hl : l < ps.length), j < l →
        ∀ ml, getPrototype (ps.get ⟨l, hl⟩) [] = .ok ml → hasKey k ml = false) →
      lookupKey k M = lookupKey k mj := by
  induction ps with
  | nil =>
    intro prot M _ _ k j hj
    exact absurd hj (by simp)
  | cons p ps' ih =>
    intro prot M hnp h k j hj mj hmj hkmj hlater
    rw [resolveParents_cons] at h
    rcases h0 : getPrototype p prot with e | m'
    · rw [h0] at h
      simp at h
    · rw [h0] at h
      change resolveParents ps' m' = .ok M at h
      have hrelp := gp_accum p hnp
      rcases hq0 : getPrototype p [] with e0 | m0'
      · rw [hq0, h0] at hrelp
        simp [Rel] at hrelp
      · rw [hq0, h0] at hrelp
        simp only [Rel] at hrelp
        obtain ⟨⟨hlp, _⟩, hnpm'⟩ := hrelp
        rcases j with _ | j'
        · have hg : (p :: ps').get ⟨0, hj⟩ = p := rfl
          rw [hg, hq0] at hmj
          obtain rfl : m0' = mj := Except.ok.inj hmj
          have hnone : ∀ p' ∈ ps', ∀ mp, getPrototype p' [] = .ok mp → hasKey k mp = false := by
            intro p' hp' mp hmp
            obtain ⟨⟨l, hl⟩, rfl⟩ := List.mem_iff_get.mp hp'
            have hgl : (p :: ps').get ⟨l + 1, by simpa using hl⟩ = ps'.get ⟨l, hl⟩ := rfl
            exact hlater (l + 1) (by simpa using hl) (Nat.succ_pos l) mp (by rw [hgl]; exact hmp)
          have hpres := rp_preserves ps' hnpm' h k hnone
          rw [hpres, hlp k, if_pos hkmj]
        · have hj' : j' < ps'.length := by simpa using hj
          have hg : (p :: ps').get ⟨j' + 1, hj⟩ = ps'.get ⟨j', hj'⟩ := rfl
          rw [hg] at hmj
          refine ih m' M hnpm' h k j' hj' mj hmj hkmj ?_
          intro l hl hjl ml hml
          have hgl : (p :: ps').get ⟨l + 1, by simpa using hl⟩ = ps'.get ⟨l, hl⟩ := rfl
          exact hlater (l + 1) (by simpa using hl) (by omega) ml (by rw [hgl]; exact hml)

theorem hasKey_iff_aux (entries R : Dict) (plist : List Val)
    (hq : resolveParents plist [] = .ok R) (k : String) :
    hasKey k (popKey "prototype" (updateDict R entries)) = true ↔
      (k ≠ "prototype" ∧ (hasKey k entries = true
        ∨ ∃ p ∈ plist, ∃ mp, getPrototype p [] = .ok mp ∧ hasKey k mp = true)) := by
  rw [hasKey_popUpdate]
  by_cases hk : "prototype" = k
  · rw [if_pos hk]
    constructor
    · intro hh
      cases hh
    · rintro ⟨hne, _⟩
      exact absurd hk.symm hne
  · rw [if_neg hk]
    constructor
    · intro hh
      refine ⟨fun hkk => hk hkk.symm, ?_⟩
      simp only [Bool.or_eq_true] at hh
      rcases hh with h1 | h2
      · exact .inl h1
      · exact .inr ((rp_hasKey_union plist hq k).mp h2)
    · rintro ⟨hne, h1 | h2⟩
      · simp [h1]
      · simp [(rp_hasKey_union plist hq k).mpr h2]

/-- C3: for every specification whose resolution succeeds (parent graphs are
acyclic by construction in the embedding), the resolved mapping contains no
`prototype` key, has at most one value per field name (its key list is
duplicate-free), and a name is a key of it exactly when it is a non-`prototype`
key of the specification itself or a key of some parent's resolved mapping. -/
theorem C3_resolved_mapping_invariants (entries m : Dict)
    (hres : resolve (.vdict entries) = .ok m) :
    lookupKey "prototype" m = none
    ∧ (keysOf m).Nodup
    ∧ ∀ k : String, hasKey k m = true ↔
        (k ≠ "prototype" ∧ (hasKey k entries = true
          ∨ ∃ p ∈ parentsOf entries, ∃ mp, getPrototype p [] = .ok mp ∧ hasKey k mp = true)) := by
  refine ⟨lookupKey_eq_none_of_hasKey_false (resolve_noproto hres), resolve_nodup hres, ?_⟩
  intro k
  rw [resolve, getPrototype_dict] at hres
  rcases hlk : lookupKey "prototype" entries with _ | pv
  · simp only [hlk] at hres
    obtain rfl : popKey "prototype" (updateDict [] entries) = m := Except.ok.inj hres
    have := hasKey_iff_aux entries [] [] (resolveParents_nil []) k
    simpa [parentsOf, hlk] using this
  · cases pv with
    | vdict d =>
      simp only [hlk] at hres
      rcases hq : resolveParents [Val.vdict d] [] with e | R
      · simp only [hq] at hres
        simp at hres
      · simp only [hq] at hres
        obtain rfl : popKey "prototype" (updateDict R entries) = m := Except.ok.inj hres
        have := hasKey_iff_aux entries R [Val.vdict d] hq k
        simpa [parentsOf, hlk] using this
    | vlist xs =>
      simp only [hlk] at hres
      rcases hq : resolveParents xs [] with e | R
      · simp only [hq] at hres
        simp at hres
      · simp only [hq] at hres
        obtain rfl : popKey "prototype" (updateDict R entries) = m := Except.ok.inj hres
        have := hasKey_iff_aux entries R xs hq k
        simpa [parentsOf, hlk] using this
    | vstr s =>
      simp only [hlk] at hres
      by_cases hs : s.isEmpty = true
      · rw [if_pos hs] at hres
        obtain rfl : popKey "prototype" (updateDict [] entries) = m := Except.ok.inj hres
        have := hasKey_iff_aux entries [] [] (resolveParents_nil []) k
        simpa [parentsOf, hlk] using this
      · rw [if_neg hs] at hres
        cases hres
    | vint n0 =>
      simp only [hlk] at hres
      cases hres
    | vnone =>
      simp only [hlk] at hres
      cases hres
    | vcallable i =>
      simp only [hlk] at hres
      cases hres

/-- C2: when a specification names parents P1..Pn through its `prototype`
field, a field defined by the resolved mapping of parent j but by no later
parent resolves to parent j's value whenever the specification does not define
the field itself (rightmost parent wins), and a field the specification
defines directly always resolves to the specification's own value, regardless
of the parents. -/
theorem C2_rightmost_parent_wins_and_self_overrides (entries : Dict)
    (parents : List Val) (m : Dict)
    (hnod : (keysOf entries).Nodup)
    (hp : lookupKey "prototype" entries = some (.vlist parents))
    (hres : resolve (.vdict entries) = .ok m) :
    (∀ (k : String) (j : Nat) (hj : j < parents.length) (mj : Dict),
       getPrototype (parents.get ⟨j, hj⟩) [] = .ok mj →
       hasKey k mj = true →
       (∀ (l : Nat) (hl : l < parents.length), j < l →
         ∀ ml, getPrototype (parents.get ⟨l, hl⟩) [] = .ok ml → hasKey k ml = false) →
       hasKey k entries = false →
       lookupKey k m = lookupKey k mj)
    ∧ (∀ (k : String) (v : Val), k ≠ "prototype" → lookupKey k entries = some v →
       lookupKey k m = some v) := by
  rw [resolve, getPrototype_dict] at hres
  simp only [hp] at hres
  rcases hq : resolveParents parents [] with e | R
  · simp only [hq] at hres
    cases hres
  · simp only [hq] at hres
    obtain rfl : popKey "prototype" (updateDict R entries) = m := Except.ok.inj hres
    constructor
    · intro k j hj mj hmj hkmj hlater hself
      have hkp : ¬ "prototype" = k := by
        intro hh
        rw [← hh] at hself
        rw [hasKey, hp] at hself
        cases hself
      rw [lookupKey_popKey, if_neg hkp, lookupKey_updateDict]
      have hrev : lookupKey k entries.reverse = none := by
        apply lookupKey_eq_none_of_hasKey_false
        rw [hasKey_reverse]
        exact hself
      rw [hrev]
      exact rp_last_lookup parents [] R rfl hq k j hj mj hmj hkmj hlater
    · intro k v hk hkv
      have hkp : ¬ "prototype" = k := fun hh => hk hh.symm
      rw [lookupKey_popKey, if_neg hkp, lookupKey_updateDict,
        lookupKey_reverse_of_nodup k entries hnod, hkv]

theorem C3_witness :
    resolve childW = .ok [("f", .vint 3), ("g", .vint 9), ("key", .vstr "c")]
    ∧ lookupKey "prototype" [("f", .vint 3), ("g", .vint 9), ("key", .vstr "c")] = none
    ∧ (keysOf [("f", .vint 3), ("g", .vint 9), ("key", .vstr "c")]).Nodup
    ∧ (∀ k : String,
        hasKey k [("f", .vint 3), ("g", .vint 9), ("key", .vstr "c")] = true ↔
          (k ≠ "prototype"
            ∧ (hasKey k [("key", .vstr "c"), ("g", .vint 9), ("prototype", .vlist [parentA, parentB])] = true
              ∨ ∃ p ∈ parentsOf [("key", .vstr "c"), ("g", .vint 9), ("prototype", .vlist [parentA, parentB])],
                  ∃ mp, getPrototype p [] = .ok mp ∧ hasKey k mp = true))) := by
  have hres : resolve (.vdict [("key", .vstr "c"), ("g", .vint 9),
      ("prototype", .vlist [parentA, parentB])]) =
      .ok [("f", .vint 3), ("g", .vint 9), ("key", .vstr "c")] := by
    simp [parentA, parentB, resolve, getPrototype, resolveParents, nonDictResolve,
          protoMember, updateWith, updatePairs, lookupKey, hasKey, setKey, updateDict, popKey]
  obtain ⟨h1, h2, h3⟩ := C3_resolved_mapping_invariants _ _ hres
  exact ⟨hres, h1, h2, h3⟩

theorem C2_witness :
    (keysOf [("key", .vstr "c"), ("g", .vint 9), ("prototype", .vlist [parentA, parentB])]).Nodup
    ∧ lookupKey "prototype" [("key", .vstr "c"), ("g", .vint 9), ("prototype", .vlist [parentA, parentB])]
        = some (.vlist [parentA, parentB])
    ∧ lookupKey "f" [("f", .vint 3), ("g", .vint 9), ("key", .vstr "c")] = some (.vint 3)
    ∧ lookupKey "g" [("f", .vint 3), ("g", .vint 9), ("key", .vstr "c")] = some (.vint 9) := by
  have hres : resolve (.vdict [("key", .vstr "c"), ("g", .vint 9),
      ("prototype", .vlist [parentA, parentB])]) =
      .ok [("f", .vint 3), ("g", .vint 9), ("key", .vstr "c")] := by
    simp [parentA, parentB, resolve, getPrototype, resolveParents, nonDictResolve,
          protoMember, updateWith, updatePairs, lookupKey, hasKey, setKey, updateDict, popKey]
  obtain ⟨hA, hB⟩ := C2_rightmost_parent_wins_and_self_overrides
    [("key", .vstr "c"), ("g", .vint 9), ("prototype", .vlist [parentA, parentB])]
    [parentA, parentB] [("f", .vint 3), ("g", .vint 9), ("key", .vstr "c")]
    (by simp [keysOf]) rfl hres
  refine ⟨by simp [keysOf], rfl, ?_, ?_⟩
  · have hlast := hA "f" 1 (by simp) [("f", .vint 3)]
      (by simp [parentB, getPrototype, nonDictResolve, protoMember, updateWith,
            lookupKey, hasKey, setKey, updateDict, popKey])
      (by simp [hasKey, lookupKey])
      (fun l hl hjl ml hml => absurd hjl (by simp at hl; omega))
      (by simp [hasKey, lookupKey])
    rw [hlast]
    rfl
  · exact hB "g" (.vint 9) (by simp) rfl

theorem wfSpec_dict (entries : Dict) :
    wfSpec (.vdict entries) =
      match lookupKey "prototype" entries with
      | some (.vdict d) => wfSpec (.vdict d)
      | some (.vlist xs) => wfParents xs
      | some _ => false
      | none => true := by
  rw [wfSpec.eq_def]
  split
  · rename_i e2 heq
    injection heq with h2
    subst h2
    split <;> rename_i hlk <;> simp [hlk]
  · rename_i hne
    exact absurd rfl (hne entries)

theorem wf_resolves (n : Nat) :
    (∀ p : Val, sizeOf p ≤ n → wfSpec p = true → ∀ prot, ∃ m, getPrototype p prot = .ok m)
    ∧ (∀ ps : List Val, sizeOf ps ≤ n → wfParents ps = true → ∀ prot,
        ∃ m, resolveParents ps prot = .ok m) := by
  induction n using Nat.strong_induction_on with
  | _ n ih =>
    constructor
    · intro p hp hwf prot
      cases p with
      | vdict entries =>
        rw [getPrototype_dict]
        rw [wfSpec_dict] at hwf
        rcases hlk : lookupKey "prototype" entries with _ | pv
        · simp only [hlk]
          exact ⟨_, rfl⟩
        · cases pv with
          | vdict d =>
            simp only [hlk] at hwf ⊢
            have hsz : sizeOf ([Val.vdict d] : List Val) < n := by
              have h1 := lookupKey_sizeOf hlk
              simp at h1 hp ⊢
              omega
            have hwfl : wfParents [Val.vdict d] = true := by
              simp [wfParents, hwf]
            obtain ⟨m1, hm1⟩ := (ih _ hsz).2 [Val.vdict d] le_rfl hwfl prot
            rw [hm1]
            exact ⟨_, rfl⟩
          | vlist xs =>
            simp only [hlk] at hwf ⊢
            have hsz : sizeOf xs < n := by
              have h1 := lookupKey_sizeOf hlk
              simp at h1 hp ⊢
              omega
            obtain ⟨m1, hm1⟩ := (ih _ hsz).2 xs le_rfl hwf prot
            rw [hm1]
            exact ⟨_, rfl⟩
          | vstr s =>
            simp only [hlk] at hwf
            cases hwf
          | vint n0 =>
            simp only [hlk] at hwf
            cases hwf
          | vnone =>
            simp only [hlk] at hwf
            cases hwf
          | vcallable i =>
            simp only [hlk] at hwf
            cases hwf
      | vnone => simp [wfSpec] at hwf
      | vint n0 => simp [wfSpec] at hwf
      | vstr s => simp [wfSpec] at hwf
      | vlist l => simp [wfSpec] at hwf
      | vcallable i => simp [wfSpec] at hwf
    · intro ps hps hwf prot
      cases ps with
      | nil =>
        rw [resolveParents_nil]
        exact ⟨prot, rfl⟩
      | cons p ps' =>
        cases p with
        | vdict d =>
          simp only [wfParents, Bool.and_eq_true] at hwf
          rw [resolveParents_cons]
          have hp1 : 1 ≤ sizeOf (Val.vdict d) := sizeOf_val_pos _
          have hps1 : 1 ≤ sizeOf ps' := sizeOf_vallist_pos ps'
          have hsz1 : sizeOf (Val.vdict d) < n := by
            simp at hps
            simp
            omega
          have hsz2 : sizeOf ps' < n := by
            simp at hps
            omega
          obtain ⟨m1, hm1⟩ := (ih _ hsz1).1 (Val.vdict d) le_rfl hwf.1 prot
          simp only [hm1]
          exact (ih _ hsz2).2 ps' le_rfl hwf.2 m1
        | vnone => simp [wfParents] at hwf
        | vint n0 => simp [wfParents] at hwf
        | vstr s => simp [wfParents] at hwf
        | vlist l => simp [wfParents] at hwf
        | vcallable i => simp [wfParents] at hwf

/-- C9: for every well-formed specification (a dict whose `prototype` chains
are dicts or lists of dicts — acyclic by construction, since `Val` is an
inductive type), resolution terminates and returns a mapping: `resolve` is a
total function and yields no error on such input. -/
theorem C9_wf_resolution_succeeds (spec : Val) (h : wfSpec spec = true) :
    ∃ m, resolve spec = .ok m :=
  (wf_resolves (sizeOf spec)).1 spec le_rfl h []

theorem C9_witness : wfSpec childW = true ∧ ∃ m, resolve childW = .ok m := by
  have hwf : wfSpec childW = true := by
    simp [childW, parentA, parentB, wfSpec, wfParents, lookupKey]
  exact ⟨hwf, C9_wf_resolution_succeeds childW hwf⟩

/-- C8 counterexample: the empty string is a plain string — neither a mapping
nor an ordered collection of mappings — yet a specification whose `prototype`
field holds it does not fail: resolution succeeds and returns a mapping
(iterating the empty string yields no elements, so the parent loop body never
runs).  And a nonempty plain string does fail, but with a value error raised
while merging its one-character elements, not with the type-mismatch error the
claim names. -/
theorem C8_counterexample_empty_string_prototype :
    resolve (.vdict [("a", .vint 1), ("prototype", .vstr "")]) = .ok [("a", .vint 1)]
    ∧ resolve (.vdict [("a", .vint 1), ("prototype", .vstr "xy")]) = .error .valueError
    ∧ PyErr.valueError ≠ PyErr.typeError := by
  refine ⟨?_, ?_, by decide⟩
  · simp [resolve, getPrototype, resolveParents, nonDictResolve, protoMember, updateWith,
          updatePairs, lookupKey, hasKey, setKey, updateDict, popKey]
    decide
  · simp [resolve, getPrototype, resolveParents, nonDictResolve, protoMember, updateWith,
          updatePairs, lookupKey, hasKey, setKey, updateDict, popKey]
    decide

/-- C8 amended: a `prototype` value that is not iterable (an integer, None, a
function) makes resolution fail fast with a type-mismatch error; a nonempty
plain string fails with a value error when its one-character elements are
merged; but the empty string is iterable with no elements and resolution
succeeds, treating it as naming no parents.  No error is caught inside the
resolver. -/
theorem C8_malformed_prototype_errors (entries : Dict) :
    (∀ n : Int, lookupKey "prototype" entries = some (.vint n) →
       resolve (.vdict entries) = .error .typeError)
    ∧ (lookupKey "prototype" entries = some .vnone →
       resolve (.vdict entries) = .error .typeError)
    ∧ (∀ i : Nat, lookupKey "prototype" entries = some (.vcallable i) →
       resolve (.vdict entries) = .error .typeError)
    ∧ (∀ s : String, lookupKey "prototype" entries = some (.vstr s) → s ≠ "" →
       resolve (.vdict entries) = .error .valueError)
    ∧ (∀ s : String, lookupKey "prototype" entries = some (.vstr s) → s = "" →
       resolve (.vdict entries) = .ok (popKey "prototype" (updateDict [] entries))) := by
  rw [resolve, getPrototype_dict]
  refine ⟨?_, ?_, ?_, ?_, ?_⟩
  · intro n h
    simp only [h]
  · intro h
    simp only [h]
  · intro i h
    simp only [h]
  · intro s h hs
    have hemp : s.isEmpty = false :=
      Bool.eq_false_iff.mpr (fun hh => hs ((String.isEmpty_iff s).mp hh))
    simp only [h, hemp]
    rw [if_neg (by simp)]
  · intro s h hs
    subst hs
    simp only [h]
    rw [if_pos (by decide)]

theorem C8_witness :
    resolve (.vdict [("prototype", .vint 5)]) = .error .typeError
    ∧ resolve (.vdict [("a", .vint 1), ("prototype", .vstr "xy")]) = .error .valueError := by
  have h1 := (C8_malformed_prototype_errors [("prototype", .vint 5)]).1 5 rfl
  have h2 := (C8_malformed_prototype_errors [("a", .vint 1), ("prototype", .vstr "xy")]).2.2.2.1
    "xy" rfl (by decide)
  exact ⟨h1, h2⟩

/-- C1 (code-bug exhibit): the partitioning of `spawn` is not mutually
exclusive.  A field named `ndb_gold` is stored as the transient attribute
`gold` AND as the generic persisted attribute `ndb_gold`: the generic filter
tests membership of the original key among the already-stripped transient
names, so the `ndb_`-prefixed original is never excluded. -/
theorem C1_ndb_field_in_both_partitions :
    (buildParams cfgW 7 [("ndb_gold", .vint 42)]).1.nattributes = [("gold", .vint 42)]
    ∧ (buildParams cfgW 7 [("ndb_gold", .vint 42)]).1.attributes = [("ndb_gold", .vint 42)] :=
  ⟨rfl, rfl⟩

/-- C4 (code-bug exhibit): a generic-attribute field whose callable is never
invoked.  With fields `foo` (a callable) and `ndb_foo`, the stripped transient
name `foo` shadows the generic field `foo`: the generic filter drops it, its
callable is never invoked (the invocation trace is empty) and no `foo`
attribute is stored; the transient mapping keeps the literal from `ndb_foo`. -/
theorem C4_generic_callable_never_invoked :
    (buildParams cfgW 7 [("foo", .vcallable 0), ("ndb_foo", .vint 1)]).2 = []
    ∧ hasKey "foo" (buildParams cfgW 7 [("foo", .vcallable 0), ("ndb_foo", .vint 1)]).1.attributes
        = false
    ∧ lookupKey "foo" (buildParams cfgW 7 [("foo", .vcallable 0), ("ndb_foo", .vint 1)]).1.nattributes
        = some (.vint 1)
    ∧ (buildParams cfgW 7 [("foo", .vcallable 0), ("ndb_foo", .vint 1)]).1.attributes
        = [("ndb_foo", .vint 1)] :=
  ⟨rfl, rfl, rfl, rfl⟩

theorem runEvents_append (failing : Event → Bool) (a b : List Event) :
    (runEvents failing (a ++ b)).1 =
      (if (runEvents failing a).2 then (runEvents failing a).1
       else (runEvents failing a).1 ++ (runEvents failing b).1)
    ∧ (runEvents failing (a ++ b)).2 =
      (if (runEvents failing a).2 then true else (runEvents failing b).2) := by
  induction a with
  | nil => simp [runEvents]
  | cons e rest ih =>
    obtain ⟨ih1, ih2⟩ := ih
    by_cases hf : failing e = true
    · simp [runEvents, hf]
    · by_cases hr : (runEvents failing rest).2 = true
      · simp [runEvents, hf, hr, ih1, ih2]
      · simp [runEvents, hf, hr, ih1, ih2]

theorem runEntityLoop_events (failing : Event → Bool) :
    ∀ (ps : List SpawnParams) (j : Nat) (objs : List Entity),
      (runEntityLoop failing j ps objs).2.1 = (runEvents failing (entityLoop j ps)).1
      ∧ (runEntityLoop failing j ps objs).2.2 = (runEvents failing (entityLoop j ps)).2 := by
  intro ps
  induction ps with
  | nil =>
    intro j objs
    simp [runEntityLoop, entityLoop, runEvents]
  | cons p rest ih =>
    intro j objs
    obtain ⟨ha1, ha2⟩ := runEvents_append failing (entityEvents j p) (entityLoop (j + 1) rest)
    obtain ⟨ih1, ih2⟩ := ih (j + 1) (objs ++ [⟨j, p⟩])
    by_cases hr : (runEvents failing (entityEvents j p)).2 = true
    · simp [runEntityLoop, entityLoop, hr, ha1, ha2, ih1, ih2]
    · simp [runEntityLoop, entityLoop, hr, ha1, ha2, ih1, ih2]

/-- C7 amended: `_batch_create_object` executes the batch's calls strictly in
sequence with no exception handling, so a raising call ends the whole run: the
constructions all happen up front, and the executed call sequence (with the
raised flag) is exactly the sequential prefix of the full batch trace up to and
including the first raising call — the remainder of the failing object's
attachment sequence AND every later object's hooks and attachments are
skipped, and objects whose sequences completed earlier stay created. -/
theorem C7_failure_aborts_rest_of_batch (failing : Event → Bool)
    (params : List SpawnParams) :
    (runBatchFail failing params).events = (runEvents failing (batchTrace params)).1
    ∧ (runBatchFail failing params).raised = (runEvents failing (batchTrace params)).2 := by
  obtain ⟨ha1, ha2⟩ := runEvents_append failing
    ((List.range params.length).map Event.construct) (entityLoop 0 params)
  obtain ⟨hb1, hb2⟩ := runEntityLoop_events failing params 0 []
  by_cases hc : (runEvents failing ((List.range params.length).map Event.construct)).2 = true
  · simp [runBatchFail, batchTrace, hc, ha1, ha2]
  · simp [runBatchFail, batchTrace, hc, ha1, ha2, hb1, hb2]

/-- C7 counterexample: with two packed records and a permissions handler that
raises on the first object, the second object's hooks and attachments are
never attempted (only its bare construction happened in the up-front bulk
pass) and it is not returned — one object's attachment failure does abort the
whole batch. -/
theorem C7_counterexample_batch_aborts :
    (runBatchFail failPerm0 paramsW).raised = true
    ∧ (runBatchFail failPerm0 paramsW).events =
        [Event.construct 0, Event.construct 1, Event.basetypeSetup 0,
         Event.atObjectCreation 0, Event.addPermissions 0]
    ∧ Event.basetypeSetup 1 ∉ (runBatchFail failPerm0 paramsW).events
    ∧ (runBatchFail failPerm0 paramsW).objs = [] := by
  refine ⟨rfl, rfl, by decide, rfl⟩

theorem spawnLoop_ok (cfg : Config) :
    ∀ (specs : List Val) (i : Nat),
      (∀ s ∈ specs, ∃ m, getPrototype s [] = .ok m) →
      ∃ tr, spawnLoop cfg i specs = .ok (specsFilter cfg i specs, tr) := by
  intro specs
  induction specs with
  | nil =>
    intro i h
    exact ⟨[], rfl⟩
  | cons s rest ih =>
    intro i h
    obtain ⟨m, hm⟩ := h s (List.mem_cons_self s rest)
    obtain ⟨tr, htr⟩ := ih (i + 1) (fun x hx => h x (List.mem_cons_of_mem _ hx))
    by_cases he : m.isEmpty = true
    · refine ⟨tr, ?_⟩
      simp only [spawnLoop, hm, he, if_true, specsFilter, specResolvedParams]
      exact htr
    · refine ⟨(buildParams cfg (cfg.randint i) m).2 ++ tr, ?_⟩
      simp only [spawnLoop, hm, he, Bool.false_eq_true, if_false, htr, specsFilter,
        specResolvedParams]

theorem objLoop_params : ∀ (ps : List SpawnParams) (i : Nat),
    (objLoop i ps).map Entity.params = ps := by
  intro ps
  induction ps with
  | nil => intro i; rfl
  | cons p rest ih =>
    intro i
    simp only [objLoop, List.map_cons, ih]

theorem objLoop_idx : ∀ (ps : List SpawnParams) (i : Nat),
    (objLoop i ps).map Entity.idx = List.range' i ps.length := by
  intro ps
  induction ps with
  | nil => intro i; rfl
  | cons p rest ih =>
    intro i
    simp only [objLoop, List.map_cons, ih, List.length_cons, List.range'_succ]

theorem objLoop_length : ∀ (ps : List SpawnParams) (i : Nat),
    (objLoop i ps).length = ps.length := by
  intro ps
  induction ps with
  | nil => intro i; rfl
  | cons p rest ih =>
    intro i
    simp only [objLoop, List.length_cons, ih]

/-- C5: when every specification resolves, `spawn` succeeds and returns one
entity per specification with nonempty resolution, in input order: the list of
creation records of the returned entities is exactly the input list filtered
of empty resolutions (`specsFilter`), each entity carrying its batch position
in order.  Specifications with empty resolution contribute no entity and no
slot. -/
theorem C5_spawn_order_preserving_skips_empty (cfg : Config) (specs : List Val)
    (h : ∀ s ∈ specs, ∃ m, getPrototype s [] = .ok m) :
    ∃ objs events tr, spawn cfg specs = .ok (objs, events, tr)
      ∧ objs.map Entity.params = specsFilter cfg 0 specs
      ∧ objs.map Entity.idx = List.range objs.length := by
  obtain ⟨tr, htr⟩ := spawnLoop_ok cfg specs 0 h
  refine ⟨objLoop 0 (specsFilter cfg 0 specs), batchTrace (specsFilter cfg 0 specs), tr, ?_, ?_, ?_⟩
  · simp only [spawn, htr]
    rfl
  · exact objLoop_params _ 0
  · rw [objLoop_idx, objLoop_length, List.range_eq_range']

theorem C5_witness :
    (∀ s ∈ specsW, ∃ m, getPrototype s [] = .ok m)
    ∧ ∃ objs events tr, spawn cfgW specsW = .ok (objs, events, tr)
        ∧ objs.map Entity.params = specsFilter cfgW 0 specsW
        ∧ objs.map Entity.idx = List.range objs.length := by
  have h : ∀ s ∈ specsW, ∃ m, getPrototype s [] = .ok m := by
    intro s hs
    have hs' : s = .vdict [("key", .vstr "a")] ∨ s = .vdict []
        ∨ s = .vdict [("key", .vstr "b"), ("extra", .vint 5)] := by
      simpa [specsW] using hs
    rcases hs' with rfl | rfl | rfl
    · exact ⟨[("key", .vstr "a")], by
        simp [getPrototype, nonDictResolve, protoMember, updateWith, lookupKey, hasKey,
          setKey, updateDict, popKey]⟩
    · exact ⟨[], by
        simp [getPrototype, nonDictResolve, protoMember, updateWith, lookupKey, hasKey,
          setKey, updateDict, popKey]⟩
    · exact ⟨[("key", .vstr "b"), ("extra", .vint 5)], by
        simp [getPrototype, nonDictResolve, protoMember, updateWith, lookupKey, hasKey,
          setKey, updateDict, popKey]⟩
  exact ⟨h, C5_spawn_order_preserving_skips_empty cfgW specsW h⟩

theorem entityEvents_idx (i : Nat) (p : SpawnParams) :
    ∀ e ∈ entityEvents i p, Event.idx e = i := by
  intro e he
  simp only [entityEvents, List.mem_append] at he
  rcases he with ((((((h | h) | h) | h) | h) | h) | h)
  · simp at h
    rcases h with rfl | rfl <;> rfl
  · split at h
    · simp at h
      subst h
      rfl
    · simp at h
  · split at h
    · simp at h
      subst h
      rfl
    · simp at h
  · split at h
    · simp at h
      subst h
      rfl
    · simp at h
  · split at h
    · simp at h
    · obtain ⟨kv, hkv, rfl⟩ := List.mem_map.mp h
      rfl
  · split at h
    · simp at h
    · simp at h
      subst h
      rfl
  · simp at h
    subst h
    rfl

theorem entityLoop_idx_bounds : ∀ (ps : List SpawnParams) (j : Nat) (e : Event),
    e ∈ entityLoop j ps → j ≤ Event.idx e ∧ Event.idx e < j + ps.length := by
  intro ps
  induction ps with
  | nil =>
    intro j e he
    simp [entityLoop] at he
  | cons p rest ih =>
    intro j e he
    simp only [entityLoop, List.mem_append] at he
    rcases he with h | h
    · rw [entityEvents_idx j p e h]
      refine ⟨le_rfl, ?_⟩
      simp only [List.length_cons]
      omega
    · obtain ⟨h1, h2⟩ := ih (j + 1) e h
      refine ⟨by omega, ?_⟩
      simp only [List.length_cons]
      omega

theorem entityLoop_filter : ∀ (ps : List SpawnParams) (j i : Nat) (p : SpawnParams),
    j ≤ i → ps[i - j]? = some p →
    (entityLoop j ps).filter (fun e => Event.idx e == i) = entityEvents i p := by
  intro ps
  induction ps with
  | nil =>
    intro j i p hj h
    simp at h
  | cons q rest ih =>
    intro j i p hj h
    simp only [entityLoop, List.filter_append]
    by_cases hij : i = j
    · subst hij
      have hz : i - i = 0 := by omega
      rw [hz] at h
      simp at h
      subst h
      have h1 : (entityEvents i q).filter (fun e => Event.idx e == i) = entityEvents i q := by
        apply List.filter_eq_self.mpr
        intro e he
        simp [entityEvents_idx i q e he]
      have h2 : (entityLoop (i + 1) rest).filter (fun e => Event.idx e == i) = [] := by
        apply List.filter_eq_nil_iff.mpr
        intro e he
        have hb := entityLoop_idx_bounds rest (i + 1) e he
        simp
        omega
      rw [h1, h2, List.append_nil]
    · have hidx : i - j = (i - (j + 1)) + 1 := by omega
      rw [hidx] at h
      simp only [List.getElem?_cons_succ] at h
      have h1 : (entityEvents j q).filter (fun e => Event.idx e == i) = [] := by
        apply List.filter_eq_nil_iff.mpr
        intro e he
        have := entityEvents_idx j q e he
        simp [this]
        omega
      rw [h1, List.nil_append]
      exact ih (j + 1) i p (by omega) h

theorem range_filter_beq (n i : Nat) :
    (List.range n).filter (fun j => j == i) = if i < n then [i] else [] := by
  induction n with
  | zero => simp
  | succ n ih =>
    rw [List.range_succ, List.filter_append, ih]
    by_cases h1 : i < n
    · have h2 : ¬ n = i := by omega
      have h3 : i < n + 1 := by omega
      have h5 : (n == i) = false := by
        simp [h2]
      simp [h1, h3, List.filter, h5]
    · by_cases h2 : i = n
      · subst h2
        simp [h1, List.filter]
      · have h3 : ¬ i < n + 1 := by omega
        have h4 : ¬ n = i := fun hh => h2 hh.symm
        have h5 : (n == i) = false := by
          simp [h4]
        simp [h1, h3, List.filter, h5]

theorem constructs_filter (n i : Nat) (h : i < n) :
    ((List.range n).map Event.construct).filter (fun e => Event.idx e == i)
      = [Event.construct i] := by
  rw [List.filter_map]
  have hcomp : (fun e => Event.idx e == i) ∘ Event.construct = fun j => j == i := by
    funext j
    rfl
  rw [hcomp, range_filter_beq, if_pos h]
  rfl

/-- C6: the calls `_batch_create_object` makes for the object at batch
position `i` are, in order: its construction (in the up-front bulk pass), the
base structural setup hook, the post-construction initialization hook, then —
before nothing else — the attachments in the fixed order permissions, locks,
aliases (each only if truthy), transient attributes, generic attributes, and
strictly last the post-hook setup call. -/
theorem C6_hook_and_attachment_order (params : List SpawnParams) (i : Nat) (p : SpawnParams)
    (h : params[i]? = some p) :
    (batchTrace params).filter (fun e => Event.idx e == i) =
      [Event.construct i, Event.basetypeSetup i, Event.atObjectCreation i]
      ++ (if truthy p.permission_string then [Event.addPermissions i] else [])
      ++ (if truthy p.lock_string then [Event.addLocks i] else [])
      ++ (if truthy p.alias_string then [Event.addAliases i] else [])
      ++ (if p.nattributes.isEmpty then []
          else p.nattributes.map (fun kv => Event.addNAttribute i kv.1))
      ++ (if p.attributes.isEmpty then [] else [Event.batchAddAttributes i])
      ++ [Event.posthookSetup i] := by
  have hi : i < params.length := by
    by_contra hc
    rw [List.getElem?_eq_none (by omega)] at h
    cases h
  have h0 : params[i - 0]? = some p := by simpa using h
  rw [batchTrace, List.filter_append, constructs_filter _ _ hi,
    entityLoop_filter params 0 i p (Nat.zero_le i) h0]
  simp [entityEvents]

theorem C6_witness :
    paramsW[0]? = some ⟨[("db_key", .vstr "a")], .vstr "perm", .vstr "lock", .vstr "",
      [("g", .vint 1)], [("h", .vint 2)]⟩
    ∧ (batchTrace paramsW).filter (fun e => Event.idx e == 0) =
        [Event.construct 0, Event.basetypeSetup 0, Event.atObjectCreation 0,
         Event.addPermissions 0, Event.addLocks 0, Event.addNAttribute 0 "g",
         Event.batchAddAttributes 0, Event.posthookSetup 0] := by
  have h : paramsW[0]? = some ⟨[("db_key", .vstr "a")], .vstr "perm", .vstr "lock", .vstr "",
      [("g", .vint 1)], [("h", .vint 2)]⟩ := rfl
  refine ⟨h, ?_⟩
  rw [C6_hook_and_attachment_order paramsW 0 _ h]
  rfl

theorem popOr_lookup_ne (k q : String) (dflt : Val) (d : Dict) (h : ¬ k = q) :
    lookupKey q (popOr k dflt d).2 = lookupKey q d := by
  rcases hl : lookupKey k d with _ | v
  · simp only [popOr, hl]
  · simp only [popOr, hl]
    rw [lookupKey_popKey, if_neg h]

theorem popOr_none_after (k : String) (dflt : Val) (d : Dict) :
    lookupKey k (popOr k dflt d).2 = none := by
  rcases hl : lookupKey k d with _ | v
  · simp only [popOr, hl]
  · simp only [popOr, hl]
    rw [lookupKey_popKey, if_pos rfl]

theorem popOr_val (k : String) (dflt : Val) (d : Dict) {v : Val}
    (h : lookupKey k d = some v) : (popOr k dflt d).1 = v := by
  simp only [popOr, h]

theorem lookup_none_not_mem {k : String} {d : Dict} (h : lookupKey k d = none) :
    ∀ v : Val, (k, v) ∉ d := by
  intro v hv
  have hm : k ∈ keysOf d := List.mem_map.mpr ⟨(k, v), hv, rfl⟩
  rw [← hasKey_iff_mem, hasKey, h] at hm
  cases hm

/-- C10: the identity and access-control fields are passed through `spawn`
without evaluation.  A callable stored under `key` or `typeclass` appears
unchanged as the corresponding creation argument, a callable under
`permissions`, `locks` or `aliases` is handed to the handlers unchanged, and
the callable-invocation trace never contains an entry for any reserved field
name — lazy evaluation applies only to generic-attribute fields. -/
theorem C10_identity_fields_pass_callables_through (cfg : Config) (rand : Int) (prot : Dict) :
    (∀ i : Nat, lookupKey "key" prot = some (.vcallable i) →
       lookupKey "db_key" (buildParams cfg rand prot).1.create_kwargs = some (.vcallable i))
    ∧ (∀ i : Nat, lookupKey "typeclass" prot = some (.vcallable i) →
       lookupKey "db_typeclass_path" (buildParams cfg rand prot).1.create_kwargs
         = some (.vcallable i))
    ∧ (∀ i : Nat, lookupKey "permissions" prot = some (.vcallable i) →
       (buildParams cfg rand prot).1.permission_string = .vcallable i)
    ∧ (∀ i : Nat, lookupKey "locks" prot = some (.vcallable i) →
       (buildParams cfg rand prot).1.lock_string = .vcallable i)
    ∧ (∀ i : Nat, lookupKey "aliases" prot = some (.vcallable i) →
       (buildParams cfg rand prot).1.alias_string = .vcallable i)
    ∧ ∀ kv ∈ (buildParams cfg rand prot).2,
        kv.1 ∉ (["key", "location", "home", "destination", "typeclass",
                 "permissions", "locks", "aliases"] : List String) := by
  refine ⟨?_, ?_, ?_, ?_, ?_, ?_⟩
  · intro i hi
    simp [buildParams, lookupKey, popOr_lookup_ne, popOr_val _ _ _ hi]
  · intro i hi
    simp [buildParams, lookupKey, popOr_lookup_ne, popOr_val, hi]
  · intro i hi
    simp [buildParams, popOr_lookup_ne, popOr_val, hi]
  · intro i hi
    simp [buildParams, popOr_lookup_ne, popOr_val, hi]
  · intro i hi
    simp [buildParams, popOr_lookup_ne, popOr_val, hi]
  · intro kv hkv
    simp only [buildParams] at hkv
    obtain ⟨⟨k0, v0⟩, hmem, hf⟩ := List.mem_filterMap.mp hkv
    obtain ⟨hmem8, hpred⟩ := List.mem_filter.mp hmem
    simp only [Bool.not_eq_eq_eq_not, Bool.not_true, Bool.or_eq_false_iff] at hpred
    obtain ⟨hcont, hnat⟩ := hpred
    have hk0 : kv.1 = k0 := by
      cases v0 <;> simp at hf
      rw [← hf]
    rw [hk0]
    intro hin
    simp only [List.mem_cons, List.not_mem_nil, or_false] at hin
    rcases hin with rfl | rfl | rfl | rfl | rfl | rfl | rfl | rfl
    · exact absurd hcont (by decide)
    · exact absurd hcont (by decide)
    · exact absurd hcont (by decide)
    · exact absurd hcont (by decide)
    · exact lookup_none_not_mem (by simp [popOr_lookup_ne, popOr_none_after]) v0 hmem8
    · exact lookup_none_not_mem (by simp [popOr_lookup_ne, popOr_none_after]) v0 hmem8
    · exact lookup_none_not_mem (by simp [popOr_lookup_ne, popOr_none_after]) v0 hmem8
    · exact lookup_none_not_mem (by simp [popOr_lookup_ne, popOr_none_after]) v0 hmem8

theorem C10_witness :
    lookupKey "db_key" (buildParams cfgW 7 protC10).1.create_kwargs = some (.vcallable 0)
    ∧ lookupKey "db_typeclass_path" (buildParams cfgW 7 protC10).1.create_kwargs
        = some (.vcallable 1)
    ∧ (buildParams cfgW 7 protC10).1.permission_string = .vcallable 2
    ∧ (buildParams cfgW 7 protC10).1.lock_string = .vcallable 3
    ∧ (buildParams cfgW 7 protC10).1.alias_string = .vcallable 4
    ∧ ∀ kv ∈ (buildParams cfgW 7 protC10).2,
        kv.1 ∉ (["key", "location", "home", "destination", "typeclass",
                 "permissions", "locks", "aliases"] : List String) := by
  obtain ⟨h1, h2, h3, h4, h5, h6⟩ :=
    C10_identity_fields_pass_callables_through cfgW 7 protC10
  exact ⟨h1 0 rfl, h2 1 rfl, h3 2 rfl, h4 3 rfl, h5 4 rfl, h6⟩

end Spawner
